import Mathlib

/-!
Shallow embedding of the generic sequence toolkit (`package slice` in
`src/dir/dir.go`, lines 190-533): a set of operations over sequences of a
runtime-determined element type, implemented in Go via `reflect`.

Modelling choices, all taken from the source:

* `Value` is the universe of dynamically typed values the toolkit handles:
  integers, strings, structured (record) values and slices.  A slice carries
  its static element kind (`reflect.Type.Elem().Kind()`), which the source
  consults even when the slice is empty.  A structured value is represented
  by its canonical JSON serialization, because the only operations the source
  applies to a struct are deep equality and `json.Marshal`-based keying.
* `Arg` models the `interface{}` argument of the mutating operations: either
  a pointer to a value (the pointee is carried and the updated pointee is
  returned) or a plain non-pointer value.
* Go runtime panics that `reflect` and map operations can raise are modelled
  explicitly as the `GoPanic` cases of an `Except`: hashing an unhashable
  (slice-valued) map key, `Value.Index` out of range, `Set`/`Append` with a
  non-assignable value, and `Type.Elem()` on a non-container type.
* Returned sentinel errors (`ErrNotSlice`, `ErrNotPointer`, `ErrNotSameType`)
  are the `GoError` cases; `reflect.DeepEqual` is structural equality of
  `Value`.
-/

set_option autoImplicit false

namespace GoUtil

/-- Runtime kind of a value, mirroring the `reflect.Kind` cases the toolkit
distinguishes: integer, string, struct and slice. -/
inductive Kind where
  | intK
  | stringK
  | structK
  | sliceK
deriving DecidableEq, Repr

/-- A dynamically typed value.  `vseq k elems` is a slice whose static element
kind is `k` (available even when `elems` is empty, like `Type.Elem().Kind()`);
`vstruct j` is a structured value represented by its canonical JSON
serialization `j`. -/
inductive Value where
  | vint (n : Int)
  | vstr (s : String)
  | vstruct (json : String)
  | vseq (elemKind : Kind) (elems : List Value)
deriving Repr

mutual

/-- Structural equality on values, modelling `reflect.DeepEqual` (and Go `==`
on the comparable values the toolkit uses as map keys, where the two agree). -/
def Value.beq : Value → Value → Bool
  | .vint a, .vint b => a == b
  | .vstr a, .vstr b => a == b
  | .vstruct a, .vstruct b => a == b
  | .vseq k1 l1, .vseq k2 l2 => k1 == k2 && Value.beqList l1 l2
  | _, _ => false

/-- Structural equality on lists of values, elementwise via `Value.beq`. -/
def Value.beqList : List Value → List Value → Bool
  | [], [] => true
  | a :: as, b :: bs => Value.beq a b && Value.beqList as bs
  | _, _ => false

end

instance : BEq Value := ⟨Value.beq⟩

mutual

/-- Soundness of `Value.beq`: it only identifies equal values. -/
theorem Value.eq_of_beq : ∀ {a b : Value}, Value.beq a b = true → a = b
  | .vint _, .vint _, h => by
    simp only [Value.beq, beq_iff_eq] at h; rw [h]
  | .vstr _, .vstr _, h => by
    simp only [Value.beq, beq_iff_eq] at h; rw [h]
  | .vstruct _, .vstruct _, h => by
    simp only [Value.beq, beq_iff_eq] at h; rw [h]
  | .vseq _ _, .vseq _ _, h => by
    simp only [Value.beq, Bool.and_eq_true, beq_iff_eq] at h
    rw [h.1, Value.eqList_of_beqList h.2]
  | .vint _, .vstr _, h => by simp [Value.beq] at h
  | .vint _, .vstruct _, h => by simp [Value.beq] at h
  | .vint _, .vseq _ _, h => by simp [Value.beq] at h
  | .vstr _, .vint _, h => by simp [Value.beq] at h
  | .vstr _, .vstruct _, h => by simp [Value.beq] at h
  | .vstr _, .vseq _ _, h => by simp [Value.beq] at h
  | .vstruct _, .vint _, h => by simp [Value.beq] at h
  | .vstruct _, .vstr _, h => by simp [Value.beq] at h
  | .vstruct _, .vseq _ _, h => by simp [Value.beq] at h
  | .vseq _ _, .vint _, h => by simp [Value.beq] at h
  | .vseq _ _, .vstr _, h => by simp [Value.beq] at h
  | .vseq _ _, .vstruct _, h => by simp [Value.beq] at h

/-- Soundness of `Value.beqList`. -/
theorem Value.eqList_of_beqList : ∀ {a b : List Value}, Value.beqList a b = true → a = b
  | [], [], _ => rfl
  | a :: as, b :: bs, h => by
    simp only [Value.beqList, Bool.and_eq_true] at h
    rw [Value.eq_of_beq h.1, Value.eqList_of_beqList h.2]
  | [], _ :: _, h => by simp [Value.beqList] at h
  | _ :: _, [], h => by simp [Value.beqList] at h

end

mutual

/-- Reflexivity of `Value.beq`. -/
theorem Value.beq_refl : ∀ a : Value, Value.beq a a = true
  | .vint _ => by simp [Value.beq]
  | .vstr _ => by simp [Value.beq]
  | .vstruct _ => by simp [Value.beq]
  | .vseq _ l => by simp [Value.beq, Value.beqList_refl l]

/-- Reflexivity of `Value.beqList`. -/
theorem Value.beqList_refl : ∀ a : List Value, Value.beqList a a = true
  | [] => rfl
  | a :: as => by simp [Value.beqList, Value.beq_refl a, Value.beqList_refl as]

end

instance : LawfulBEq Value where
  eq_of_beq := Value.eq_of_beq
  rfl := Value.beq_refl _

instance : DecidableEq Value := fun a b =>
  decidable_of_iff (Value.beq a b = true) ⟨Value.eq_of_beq, fun h => h ▸ Value.beq_refl a⟩

/-- Sentinel errors of the package, `var ( ErrNotSlice, ErrNotPointer,
ErrNotSameType )`. -/
inductive GoError where
  | ErrNotSlice
  | ErrNotPointer
  | ErrNotSameType
deriving DecidableEq, Repr

/-- Runtime panics the toolkit's reflect and map operations can raise:
`unhashableKey` (map assignment/lookup with an uncomparable key),
`indexOutOfRange` (`Value.Index` beyond the length), `invalidSet`
(`Set`/`Append` with a value not assignable to the element type) and
`elemOfNonContainer` (`Type.Elem()` on a type that is not a container). -/
inductive GoPanic where
  | unhashableKey
  | indexOutOfRange
  | invalidSet
  | elemOfNonContainer
deriving DecidableEq, Repr

/-- The `interface ` argument of a mutating operation: either a pointer
(`byPtr v` carries the pointee `v`) or a plain value. -/
inductive Arg where
  | byPtr (v : Value)
  | byVal (v : Value)
deriving DecidableEq, Repr

instance (ε α : Type) [DecidableEq ε] [DecidableEq α] : DecidableEq (Except ε α) :=
  fun a b =>
    match a, b with
    | .ok x, .ok y =>
      if h : x = y then .isTrue (by rw [h])
      else .isFalse (fun hc => h (by cases hc; rfl))
    | .error x, .error y =>
      if h : x = y then .isTrue (by rw [h])
      else .isFalse (fun hc => h (by cases hc; rfl))
    | .ok _, .error _ => .isFalse (fun hc => Except.noConfusion hc)
    | .error _, .ok _ => .isFalse (fun hc => Except.noConfusion hc)

/-- Runtime kind of a value (`reflect.Value.Kind()`). -/
def Value.kind : Value → Kind
  | .vint _ => .intK
  | .vstr _ => .stringK
  | .vstruct _ => .structK
  | .vseq _ _ => .sliceK

/-- Private helper `isSlice`: true exactly when the kind is slice. -/
def isSlice (v : Value) : Bool := v.kind == Kind.sliceK

/-- Private helper `genKey`: a struct value is keyed by its JSON serialization
(`json.Marshal`), every other value keys as itself. -/
def genKey : Value → Value
  | .vstruct j => .vstr j
  | v => v

/-- Whether a value may be used as a Go map key: slices are not comparable, and
a map assignment or lookup with a slice key panics at run time. -/
def hashable (v : Value) : Bool := !isSlice v

/-- Elements of a slice value (empty for non-slices; only applied to slices). -/
def seqElems : Value → List Value
  | .vseq _ l => l
  | _ => []

/-- Loop of `removeFromSlice`, carrying the running position `i`: an element
whose position is listed in `idx` is skipped, every other element is kept in
order. -/
def removeFromSliceAux (idx : List Nat) (i : Nat) : List Value → List Value
  | [] => []
  | e :: rest =>
    if idx.contains i then removeFromSliceAux idx (i + 1) rest
    else e :: removeFromSliceAux idx (i + 1) rest

/-- Private helper `removeFromSlice`: copy of the slice keeping exactly the
positions not listed in `idx`, in order.  (The Go loop sizes the fresh slice as
`v.Len()-len(idx)`, which matches this for the duplicate-free index lists every
caller produces.) -/
def removeFromSlice (idx : List Nat) (v : List Value) : List Value :=
  removeFromSliceAux idx 0 v

mutual

/-- Public operation `Contains`.  A non-slice source fails with `ErrNotSlice`.
A slice-kind needle enters the recursive loop `containsSeq`; a scalar needle is
scanned for with `reflect.DeepEqual` and the first match returns true. -/
def Contains (src element : Value) : Bool × Option GoError :=
  match src with
  | .vseq _ elems =>
    match element with
    | .vseq ke nelems => containsSeq (.vseq ke nelems) elems
    | _ => (elems.contains element, none)
  | _ => (false, some .ErrNotSlice)
termination_by sizeOf src + sizeOf element

/-- Loop of `Contains`' sequence-needle branch.  Note the recursive call swaps
the arguments: the source reads `Contains(element, sv.Index(i))`, asking
whether the needle contains the i-th source element. -/
def containsSeq (element : Value) : List Value → Bool × Option GoError
  | [] => (false, none)
  | e :: rest =>
    match Contains element e with
    | (_, some err) => (false, some err)
    | (true, none) => (true, none)
    | (false, none) => containsSeq element rest
termination_by l => sizeOf l + sizeOf element

end

/-- Index-collection loop of `Remove`'s scalar branch: the positions of the
source elements `reflect.DeepEqual` to the needle, in increasing order. -/
def matchIdxAux (e : Value) (i : Nat) : List Value → List Nat
  | [] => []
  | x :: rest =>
    if x == e then i :: matchIdxAux e (i + 1) rest
    else matchIdxAux e (i + 1) rest

mutual

/-- Public operation `Remove`.  A non-pointer source fails with
`ErrNotPointer`; a pointer to a non-slice with `ErrNotSlice`.  A slice-kind
needle recurses element by element through the same pointer (`removeList`), so
the pointee seen by a later iteration reflects earlier removals.  A scalar
needle first compares its kind against the slice's element kind
(`ErrNotSameType` on mismatch), then removes every deep-equal occurrence. -/
def Remove (src : Arg) (element : Value) : Option GoError × Arg :=
  match src with
  | .byVal v => (some .ErrNotPointer, .byVal v)
  | .byPtr v =>
    match v with
    | .vseq k elems =>
      match element with
      | .vseq _ nelems => removeList (.byPtr (.vseq k elems)) nelems
      | _ =>
        if k == element.kind then
          (none, .byPtr (.vseq k (removeFromSlice (matchIdxAux element 0 elems) elems)))
        else (some .ErrNotSameType, .byPtr (.vseq k elems))
    | _ => (some .ErrNotSlice, .byPtr v)
termination_by sizeOf element

/-- Loop of `Remove`'s sequence-needle branch: recursive removal of each needle
element, threading the pointee and stopping at the first error. -/
def removeList (src : Arg) : List Value → Option GoError × Arg
  | [] => (none, src)
  | e :: rest =>
    match Remove src e with
    | (some err, src') => (some err, src')
    | (none, src') => removeList src' rest
termination_by l => sizeOf l

end

/-- Scan loop of `Unique`, carrying the key set `m` and position `i`: the
position of each later occurrence of an already-seen key is collected; the map
lookup panics on an unhashable key. -/
def uniqueScanAux : List Value → List Value → Nat → Except GoPanic (List Nat)
  | [], _, _ => .ok []
  | e :: rest, m, i =>
    let k := genKey e
    if hashable k then
      if m.contains k then
        match uniqueScanAux rest m (i + 1) with
        | .error p => .error p
        | .ok idxs => .ok (i :: idxs)
      else uniqueScanAux rest (m ++ [k]) (i + 1)
    else .error .unhashableKey

/-- Public operation `Unique`: drops every later occurrence of an
already-seen equality key, keeping first occurrences in order. -/
def Unique (src : Arg) : Except GoPanic (Option GoError × Arg) :=
  match src with
  | .byVal v => .ok (some .ErrNotPointer, .byVal v)
  | .byPtr v =>
    match v with
    | .vseq k elems =>
      match uniqueScanAux elems [] 0 with
      | .error p => .error p
      | .ok idx => .ok (none, .byPtr (.vseq k (removeFromSlice idx elems)))
    | _ => .ok (some .ErrNotSlice, .byPtr v)

/-- Key-set building loop (`m[genKey(v.Index(i))] = struct `): inserts each
element's key into the accumulator `m`, panicking on an unhashable key. -/
def buildKeySet (m : List Value) : List Value → Except GoPanic (List Value)
  | [] => .ok m
  | e :: rest =>
    let k := genKey e
    if hashable k then
      buildKeySet (if m.contains k then m else m ++ [k]) rest
    else .error .unhashableKey

/-- Second loop of `Intersect`, carrying position `i`: collects the positions
of source elements whose key is absent from `m`; the lookup panics on an
unhashable key. -/
def intersectIdxAux (m : List Value) (i : Nat) : List Value → Except GoPanic (List Nat)
  | [] => .ok []
  | e :: rest =>
    let k := genKey e
    if hashable k then
      if m.contains k then intersectIdxAux m (i + 1) rest
      else
        match intersectIdxAux m (i + 1) rest with
        | .error p => .error p
        | .ok idxs => .ok (i :: idxs)
    else .error .unhashableKey

/-- Public operation `Intersect`: builds the key set of the second sequence,
then filters the source in place to the elements whose key is present. -/
def Intersect (src : Arg) (dst : Value) : Except GoPanic (Option GoError × Arg) :=
  match src with
  | .byVal v => .ok (some .ErrNotPointer, .byVal v)
  | .byPtr v =>
    match v with
    | .vseq k elems =>
      match dst with
      | .vseq _ delems =>
        match buildKeySet [] delems with
        | .error p => .error p
        | .ok m =>
          match intersectIdxAux m 0 elems with
          | .error p => .error p
          | .ok idx => .ok (none, .byPtr (.vseq k (removeFromSlice idx elems)))
      | _ => .ok (some .ErrNotSlice, .byPtr v)
    | _ => .ok (some .ErrNotSlice, .byPtr v)

/-- Slice-addend loop of `Concat`: an addend element whose key is absent from
`m` is appended.  The key set `m` built from the destination's prior contents
is never extended during the loop.  The lookup panics on an unhashable key and
`reflect.Append` panics when the appended value is not assignable to the
destination's element kind `k`. -/
def concatLoop (k : Kind) (m : List Value) (acc : List Value) :
    List Value → Except GoPanic (List Value)
  | [] => .ok acc
  | e :: rest =>
    let key := genKey e
    if hashable key then
      if m.contains key then concatLoop k m acc rest
      else
        if e.kind == k then concatLoop k m (acc ++ [e]) rest
        else .error .invalidSet
    else .error .unhashableKey

/-- Public operation `Concat`: builds the key set of the destination's current
contents, then appends the addend (element by element for a slice addend,
with a kind check and single dedup lookup for a scalar addend). -/
def Concat (src : Arg) (dst : Value) : Except GoPanic (Option GoError × Arg) :=
  match src with
  | .byVal v => .ok (some .ErrNotPointer, .byVal v)
  | .byPtr v =>
    match v with
    | .vseq k elems =>
      match buildKeySet [] elems with
      | .error p => .error p
      | .ok m =>
        match dst with
        | .vseq _ delems =>
          match concatLoop k m elems delems with
          | .error p => .error p
          | .ok out => .ok (none, .byPtr (.vseq k out))
        | _ =>
          if dst.kind == k then
            if m.contains (genKey dst) then .ok (none, .byPtr (.vseq k elems))
            else .ok (none, .byPtr (.vseq k (elems ++ [dst])))
          else .ok (some .ErrNotSameType, .byPtr (.vseq k elems))
    | _ => .ok (some .ErrNotSlice, .byPtr v)

/-- Public operation `Replace`: overwrites every element deep-equal to `old`
with `nw` in place.  The element-kind check `sv.Type().Elem().Kind()` is
reached before any other test of the pointee's shape, so a pointer to a
non-slice panics (`Type.Elem()` of a non-container type). -/
def Replace (src : Arg) (old nw : Value) : Except GoPanic (Option GoError × Arg) :=
  match src with
  | .byVal v => .ok (some .ErrNotPointer, .byVal v)
  | .byPtr v =>
    match v with
    | .vseq k elems =>
      if k == nw.kind then
        .ok (none, .byPtr (.vseq k (elems.map fun x => if x == old then nw else x)))
      else .ok (some .ErrNotSameType, .byPtr (.vseq k elems))
    | _ => .error .elemOfNonContainer

/-- Fill loop of `Flatten`: writes each inner element into the fresh result
slice; `Set` panics when the element's kind differs from the result's element
kind `k0` (taken from the first inner element). -/
def flattenFill (k0 : Kind) : List Value → Except GoPanic (List Value)
  | [] => .ok []
  | w :: rest =>
    if w.kind == k0 then
      match flattenFill k0 rest with
      | .error p => .error p
      | .ok out => .ok (w :: out)
    else .error .invalidSet

/-- Public operation `Flatten`.  A non-slice input, or a slice with some
non-slice element, is returned unchanged with a nil error.  When every element
is a slice the result's element type is read from `sv.Index(0).Index(0)`,
which panics (index out of range) when the outer slice or its first inner
slice is empty; otherwise the inner elements are concatenated in order. -/
def Flatten (v : Value) : Except GoPanic (Value × Option GoError) :=
  match v with
  | .vseq _ elems =>
    if elems.all isSlice then
      match elems with
      | [] => .error .indexOutOfRange
      | e0 :: _ =>
        match seqElems e0 with
        | [] => .error .indexOutOfRange
        | w0 :: _ =>
          match flattenFill w0.kind (elems.map seqElems).flatten with
          | .error p => .error p
          | .ok out => .ok (.vseq w0.kind out, none)
    else .ok (v, none)
  | _ => .ok (v, none)

/-- Specification-side description of deduplication, following the spec's
words: keep exactly the first occurrence of each distinct equality key,
preserving first-occurrence order. -/
def specFirstOccurrences : List Value → List Value
  | [] => []
  | e :: rest =>
    e :: specFirstOccurrences (rest.filter (fun x => !(genKey x == genKey e)))
termination_by l => l.length
decreasing_by
  simp only [List.length_cons]
  exact Nat.lt_succ_of_le (List.length_filter_le _ _)

/-- Whether some element of `l` has the same equality key as `x`. -/
def hasKey (l : List Value) (x : Value) : Bool :=
  l.any (fun y => genKey y == genKey x)

/-- Accumulator form of first-occurrence deduplication: elements whose key is
in `m` are dropped, kept elements add their key to `m`.  Mirrors the scan of
`Unique` at the level of values rather than positions. -/
def uniqueList (m : List Value) : List Value → List Value
  | [] => []
  | e :: rest =>
    if m.contains (genKey e) then uniqueList m rest
    else e :: uniqueList (m ++ [genKey e]) rest

theorem isSlice_genKey (v : Value) : isSlice (genKey v) = isSlice v := by
  cases v <;> rfl

theorem hashable_genKey (v : Value) (h : isSlice v = false) :
    hashable (genKey v) = true := by
  simp [hashable, isSlice_genKey, h]

theorem isSlice_false_of_hashable_genKey (v : Value) (h : hashable (genKey v) = true) :
    isSlice v = false := by
  simpa [hashable, isSlice_genKey] using h

theorem removeFromSliceAux_nil_idx (l : List Value) (i : Nat) :
    removeFromSliceAux [] i l = l := by
  induction l generalizing i with
  | nil => rfl
  | cons e rest ih => simp [removeFromSliceAux, ih]

theorem removeFromSliceAux_cons_irrelevant (l : List Value) (idx : List Nat) (a i : Nat)
    (h : a < i) : removeFromSliceAux (a :: idx) i l = removeFromSliceAux idx i l := by
  induction l generalizing i with
  | nil => rfl
  | cons e rest ih =>
    have hne : (i == a) = false := by
      simp only [beq_eq_false_iff_ne]; omega
    simp only [removeFromSliceAux, List.contains_cons, hne, Bool.false_or]
    rw [ih (i + 1) (Nat.lt_succ_of_lt h)]

theorem contains_false_of_all_gt (idx : List Nat) (i : Nat) (h : ∀ j ∈ idx, i < j) :
    idx.contains i = false := by
  induction idx with
  | nil => rfl
  | cons a rest ih =>
    have h1 : (i == a) = false := by
      simp only [beq_eq_false_iff_ne]
      exact Nat.ne_of_lt (h a (by simp))
    simp only [List.contains_cons, h1, Bool.false_or]
    exact ih (fun j hj => h j (by simp [hj]))

theorem matchIdxAux_ge (e : Value) (l : List Value) (i : Nat) :
    ∀ j ∈ matchIdxAux e i l, i ≤ j := by
  induction l generalizing i with
  | nil => intro j hj; simp [matchIdxAux] at hj
  | cons x rest ih =>
    intro j hj
    simp only [matchIdxAux] at hj
    by_cases hx : (x == e) = true
    · rw [if_pos hx] at hj
      rcases List.mem_cons.mp hj with h | h
      · omega
      · exact Nat.le_of_succ_le (ih (i + 1) j h)
    · rw [if_neg hx] at hj
      exact Nat.le_of_succ_le (ih (i + 1) j hj)

theorem removeFromSliceAux_matchIdx (e : Value) (l : List Value) (i : Nat) :
    removeFromSliceAux (matchIdxAux e i l) i l = l.filter (fun x => !(x == e)) := by
  induction l generalizing i with
  | nil => rfl
  | cons x rest ih =>
    simp only [matchIdxAux]
    by_cases hx : (x == e) = true
    · rw [if_pos hx]
      have hself : ((i :: matchIdxAux e (i + 1) rest).contains i) = true := by
        simp [List.contains_cons]
      simp only [removeFromSliceAux, hself, if_pos rfl]
      rw [removeFromSliceAux_cons_irrelevant _ _ _ _ (Nat.lt_succ_self i), ih (i + 1)]
      simp [List.filter_cons, hx]
    · rw [if_neg hx]
      have hnc : (matchIdxAux e (i + 1) rest).contains i = false :=
        contains_false_of_all_gt _ _ (fun j hj => matchIdxAux_ge e rest (i + 1) j hj)
      simp only [removeFromSliceAux, hnc]
      rw [ih (i + 1)]
      simp [List.filter_cons, hx]

theorem uniqueScanAux_hashable (l : List Value) (m : List Value) (i : Nat) (idx : List Nat)
    (h : uniqueScanAux l m i = .ok idx) : ∀ e ∈ l, hashable (genKey e) = true := by
  induction l generalizing m i idx with
  | nil => intro e he; simp at he
  | cons x rest ih =>
    intro e he
    simp only [uniqueScanAux] at h
    by_cases hh : hashable (genKey x) = true
    · rw [if_pos hh] at h
      rcases List.mem_cons.mp he with rfl | hmem
      · exact hh
      · by_cases hm : m.contains (genKey x) = true
        · rw [if_pos hm] at h
          cases hscan : uniqueScanAux rest m (i + 1) with
          | error p => rw [hscan] at h; exact absurd h (by simp)
          | ok idxs => exact ih _ _ _ hscan e hmem
        · rw [if_neg hm] at h
          exact ih _ _ _ h e hmem
    · rw [if_neg hh] at h
      exact absurd h (by simp)

theorem uniqueScanAux_ok_of_hashable (l : List Value) (m : List Value) (i : Nat)
    (hall : ∀ e ∈ l, hashable (genKey e) = true) :
    ∃ idx, uniqueScanAux l m i = .ok idx := by
  induction l generalizing m i with
  | nil => exact ⟨[], rfl⟩
  | cons x rest ih =>
    have hh : hashable (genKey x) = true := hall x (by simp)
    have hrest : ∀ e ∈ rest, hashable (genKey e) = true :=
      fun e he => hall e (by simp [he])
    simp only [uniqueScanAux, if_pos hh]
    by_cases hm : m.contains (genKey x) = true
    · rw [if_pos hm]
      obtain ⟨idxs, hscan⟩ := ih m (i + 1) hrest
      exact ⟨i :: idxs, by rw [hscan]⟩
    · rw [if_neg hm]
      exact ih _ (i + 1) hrest

theorem uniqueScanAux_ge (l : List Value) (m : List Value) (i : Nat) (idx : List Nat)
    (h : uniqueScanAux l m i = .ok idx) : ∀ j ∈ idx, i ≤ j := by
  induction l generalizing m i idx with
  | nil =>
    simp only [uniqueScanAux] at h
    cases h; simp
  | cons x rest ih =>
    simp only [uniqueScanAux] at h
    by_cases hh : hashable (genKey x) = true
    · rw [if_pos hh] at h
      by_cases hm : m.contains (genKey x) = true
      · rw [if_pos hm] at h
        cases hscan : uniqueScanAux rest m (i + 1) with
        | error p => rw [hscan] at h; exact absurd h (by simp)
        | ok idxs =>
          rw [hscan] at h
          cases h
          intro j hj
          rcases List.mem_cons.mp hj with rfl | hmem
          · omega
          · exact Nat.le_of_succ_le (ih _ _ _ hscan j hmem)
      · rw [if_neg hm] at h
        exact fun j hj => Nat.le_of_succ_le (ih _ _ _ h j hj)
    · rw [if_neg hh] at h
      exact absurd h (by simp)

theorem uniqueScanAux_removeFromSlice (l : List Value) (m : List Value) (i : Nat)
    (idx : List Nat) (h : uniqueScanAux l m i = .ok idx) :
    removeFromSliceAux idx i l = uniqueList m l := by
  induction l generalizing m i idx with
  | nil =>
    simp only [uniqueScanAux] at h
    cases h; rfl
  | cons x rest ih =>
    simp only [uniqueScanAux] at h
    by_cases hh : hashable (genKey x) = true
    · rw [if_pos hh] at h
      by_cases hm : m.contains (genKey x) = true
      · rw [if_pos hm] at h
        cases hscan : uniqueScanAux rest m (i + 1) with
        | error p => rw [hscan] at h; exact absurd h (by simp)
        | ok idxs =>
          rw [hscan] at h
          cases h
          have hself : ((i :: idxs).contains i) = true := by simp
          simp only [removeFromSliceAux, hself, if_pos rfl, uniqueList, hm, if_pos rfl]
          rw [removeFromSliceAux_cons_irrelevant _ _ _ _ (Nat.lt_succ_self i)]
          exact ih _ _ _ hscan
      · rw [if_neg hm] at h
        have hnc : idx.contains i = false :=
          contains_false_of_all_gt _ _ (fun j hj => uniqueScanAux_ge _ _ _ _ h j hj)
        have hni : i ∉ idx := by simpa using hnc
        have hmm : genKey x ∉ m := by simpa using hm
        have h1 : removeFromSliceAux idx i (x :: rest)
            = x :: removeFromSliceAux idx (i + 1) rest := by
          simp [removeFromSliceAux, hni]
        have h2 : uniqueList m (x :: rest) = x :: uniqueList (m ++ [genKey x]) rest := by
          simp [uniqueList, hmm]
        rw [h1, h2, ih _ _ _ h]
    · rw [if_neg hh] at h
      exact absurd h (by simp)

theorem uniqueList_mem (m l : List Value) : ∀ e ∈ uniqueList m l, e ∈ l := by
  induction l generalizing m with
  | nil => intro e he; simp [uniqueList] at he
  | cons x rest ih =>
    intro e he
    simp only [uniqueList] at he
    by_cases hm : m.contains (genKey x) = true
    · rw [if_pos hm] at he
      exact List.mem_cons_of_mem _ (ih m e he)
    · rw [if_neg hm] at he
      rcases List.mem_cons.mp he with rfl | hmem
      · simp
      · exact List.mem_cons_of_mem _ (ih _ e hmem)

theorem uniqueList_not_mem_m (m l : List Value) :
    ∀ e ∈ uniqueList m l, m.contains (genKey e) = false := by
  induction l generalizing m with
  | nil => intro e he; simp [uniqueList] at he
  | cons x rest ih =>
    intro e he
    simp only [uniqueList] at he
    by_cases hm : m.contains (genKey x) = true
    · rw [if_pos hm] at he
      exact ih m e he
    · rw [if_neg hm] at he
      rcases List.mem_cons.mp he with rfl | hmem
      · exact Bool.eq_false_iff.mpr hm
      · have h1 := ih (m ++ [genKey x]) e hmem
        simp [List.mem_append, not_or] at h1
        simp [h1.1]

theorem uniqueList_pairwise (m l : List Value) :
    (uniqueList m l).Pairwise (fun a b => genKey a ≠ genKey b) := by
  induction l generalizing m with
  | nil => exact List.Pairwise.nil
  | cons x rest ih =>
    simp only [uniqueList]
    by_cases hm : m.contains (genKey x) = true
    · rw [if_pos hm]; exact ih m
    · rw [if_neg hm]
      refine List.pairwise_cons.mpr ⟨?_, ih _⟩
      intro b hb
      have h1 := uniqueList_not_mem_m (m ++ [genKey x]) rest b hb
      simp [List.mem_append, not_or] at h1
      exact fun hc => h1.2 hc.symm

theorem uniqueScanAux_nodup (l : List Value) (m : List Value) (i : Nat)
    (hhash : ∀ e ∈ l, hashable (genKey e) = true)
    (hm : ∀ e ∈ l, m.contains (genKey e) = false)
    (hp : l.Pairwise (fun a b => genKey a ≠ genKey b)) :
    uniqueScanAux l m i = .ok [] := by
  induction l generalizing m i with
  | nil => rfl
  | cons x rest ih =>
    have hh : hashable (genKey x) = true := hhash x (by simp)
    have hmx : m.contains (genKey x) = false := hm x (by simp)
    rcases List.pairwise_cons.mp hp with ⟨hx, hprest⟩
    have hmm : genKey x ∉ m := by simpa using hmx
    have hstep : uniqueScanAux (x :: rest) m i
        = uniqueScanAux rest (m ++ [genKey x]) (i + 1) := by
      simp [uniqueScanAux, hh, hmm]
    rw [hstep]
    refine ih (m ++ [genKey x]) (i + 1) (fun e he => hhash e (by simp [he]))
      (fun e he => ?_) hprest
    have h1 : m.contains (genKey e) = false := hm e (by simp [he])
    have h2 : genKey x ≠ genKey e := hx e he
    simp [List.mem_append, not_or] at h1 ⊢
    exact ⟨h1, fun hc => h2 hc.symm⟩

theorem isSlice_of_not_hashable (v : Value) (h : hashable (genKey v) = false) :
    isSlice v = true := by
  by_contra hc
  rw [hashable_genKey v (Bool.eq_false_iff.mpr (by simpa using hc))] at h
  cases h

theorem uniqueScanAux_error_mem (l : List Value) (m : List Value) (i : Nat) (p : GoPanic)
    (h : uniqueScanAux l m i = .error p) : ∃ e ∈ l, isSlice e = true := by
  induction l generalizing m i p with
  | nil => simp [uniqueScanAux] at h
  | cons x rest ih =>
    simp only [uniqueScanAux] at h
    by_cases hh : hashable (genKey x) = true
    · rw [if_pos hh] at h
      by_cases hm : m.contains (genKey x) = true
      · rw [if_pos hm] at h
        cases hscan : uniqueScanAux rest m (i + 1) with
        | error q =>
          obtain ⟨e, he, hs⟩ := ih _ _ _ hscan
          exact ⟨e, by simp [he], hs⟩
        | ok idxs => rw [hscan] at h; exact absurd h (by simp)
      · rw [if_neg hm] at h
        obtain ⟨e, he, hs⟩ := ih _ _ _ h
        exact ⟨e, by simp [he], hs⟩
    · have : hashable (genKey x) = false := Bool.eq_false_iff.mpr hh
      exact ⟨x, by simp, isSlice_of_not_hashable x this⟩

theorem uniqueList_eq_spec_filter (l : List Value) (m : List Value) :
    uniqueList m l
      = specFirstOccurrences (l.filter (fun x => !(m.contains (genKey x)))) := by
  induction l generalizing m with
  | nil => simp [uniqueList, specFirstOccurrences]
  | cons x rest ih =>
    by_cases hm : m.contains (genKey x) = true
    · have hxm : genKey x ∈ m := by simpa using hm
      have h1 : uniqueList m (x :: rest) = uniqueList m rest := by
        simp [uniqueList, hxm]
      have h2 : (x :: rest).filter (fun y => !(m.contains (genKey y)))
          = rest.filter (fun y => !(m.contains (genKey y))) := by
        simp [List.filter_cons, hxm]
      rw [h1, h2, ih m]
    · have hmm : genKey x ∉ m := by simpa using hm
      have h1 : uniqueList m (x :: rest) = x :: uniqueList (m ++ [genKey x]) rest := by
        simp [uniqueList, hmm]
      have h2 : (x :: rest).filter (fun y => !(m.contains (genKey y)))
          = x :: rest.filter (fun y => !(m.contains (genKey y))) := by
        simp [List.filter_cons, hmm]
      rw [h1, h2, ih (m ++ [genKey x])]
      have h3 : (rest.filter (fun y => !(m.contains (genKey y)))).filter
            (fun y => !(genKey y == genKey x))
          = rest.filter (fun y => !((m ++ [genKey x]).contains (genKey y))) := by
        rw [List.filter_filter]
        refine List.filter_congr (fun y _ => ?_)
        by_cases hy1 : genKey y ∈ m
        · simp [hy1]
        · by_cases hy2 : genKey y = genKey x
          · simp [hy1, hy2]
          · simp [hy1, hy2]
      rw [specFirstOccurrences, h3]

theorem uniqueList_nil_eq_spec (l : List Value) :
    uniqueList [] l = specFirstOccurrences l := by
  rw [uniqueList_eq_spec_filter l []]
  congr 1
  simp

theorem buildKeySet_mem (l : List Value) (m m' : List Value)
    (h : buildKeySet m l = .ok m') (c : Value) :
    c ∈ m' ↔ (c ∈ m ∨ ∃ e ∈ l, genKey e = c) := by
  induction l generalizing m with
  | nil =>
    simp only [buildKeySet] at h
    cases h; simp
  | cons x rest ih =>
    simp only [buildKeySet] at h
    by_cases hh : hashable (genKey x) = true
    · rw [if_pos hh] at h
      by_cases hm : m.contains (genKey x) = true
      · rw [if_pos hm] at h
        have hxm : genKey x ∈ m := by simpa using hm
        rw [ih _ h]
        constructor
        · rintro (hc | ⟨e, he, hc⟩)
          · exact Or.inl hc
          · exact Or.inr ⟨e, by simp [he], hc⟩
        · rintro (hc | ⟨e, he, hc⟩)
          · exact Or.inl hc
          · rcases List.mem_cons.mp he with rfl | hr
            · exact Or.inl (hc ▸ hxm)
            · exact Or.inr ⟨e, hr, hc⟩
      · rw [if_neg hm] at h
        rw [ih _ h]
        simp only [List.mem_append, List.mem_singleton]
        constructor
        · rintro ((hc | hc) | ⟨e, he, hc⟩)
          · exact Or.inl hc
          · exact Or.inr ⟨x, by simp, hc.symm⟩
          · exact Or.inr ⟨e, by simp [he], hc⟩
        · rintro (hc | ⟨e, he, hc⟩)
          · exact Or.inl (Or.inl hc)
          · rcases List.mem_cons.mp he with rfl | hr
            · exact Or.inl (Or.inr hc.symm)
            · exact Or.inr ⟨e, hr, hc⟩
    · rw [if_neg hh] at h
      exact absurd h (by simp)

theorem buildKeySet_ok_of_flat (l : List Value) (m : List Value)
    (hall : ∀ e ∈ l, isSlice e = false) : ∃ m', buildKeySet m l = .ok m' := by
  induction l generalizing m with
  | nil => exact ⟨m, rfl⟩
  | cons x rest ih =>
    have hh : hashable (genKey x) = true := hashable_genKey x (hall x (by simp))
    simp only [buildKeySet, if_pos hh]
    exact ih _ (fun e he => hall e (by simp [he]))

theorem buildKeySet_error_mem (l : List Value) (m : List Value) (p : GoPanic)
    (h : buildKeySet m l = .error p) : ∃ e ∈ l, isSlice e = true := by
  induction l generalizing m with
  | nil => simp [buildKeySet] at h
  | cons x rest ih =>
    simp only [buildKeySet] at h
    by_cases hh : hashable (genKey x) = true
    · rw [if_pos hh] at h
      obtain ⟨e, he, hs⟩ := ih _ h
      exact ⟨e, by simp [he], hs⟩
    · exact ⟨x, by simp, isSlice_of_not_hashable x (Bool.eq_false_iff.mpr hh)⟩

theorem intersectIdxAux_ge (m : List Value) (l : List Value) (i : Nat) (idx : List Nat)
    (h : intersectIdxAux m i l = .ok idx) : ∀ j ∈ idx, i ≤ j := by
  induction l generalizing i idx with
  | nil =>
    simp only [intersectIdxAux] at h
    cases h; simp
  | cons x rest ih =>
    simp only [intersectIdxAux] at h
    by_cases hh : hashable (genKey x) = true
    · rw [if_pos hh] at h
      by_cases hm : m.contains (genKey x) = true
      · rw [if_pos hm] at h
        exact fun j hj => Nat.le_of_succ_le (ih _ _ h j hj)
      · rw [if_neg hm] at h
        cases hscan : intersectIdxAux m (i + 1) rest with
        | error q => rw [hscan] at h; exact absurd h (by simp)
        | ok idxs =>
          rw [hscan] at h
          cases h
          intro j hj
          rcases List.mem_cons.mp hj with rfl | hmem
          · omega
          · exact Nat.le_of_succ_le (ih _ _ hscan j hmem)
    · rw [if_neg hh] at h
      exact absurd h (by simp)

theorem intersectIdxAux_removeFromSlice (m : List Value) (l : List Value) (i : Nat)
    (idx : List Nat) (h : intersectIdxAux m i l = .ok idx) :
    removeFromSliceAux idx i l = l.filter (fun e => m.contains (genKey e)) := by
  induction l generalizing i idx with
  | nil =>
    simp only [intersectIdxAux] at h
    cases h; rfl
  | cons x rest ih =>
    simp only [intersectIdxAux] at h
    by_cases hh : hashable (genKey x) = true
    · rw [if_pos hh] at h
      by_cases hm : m.contains (genKey x) = true
      · rw [if_pos hm] at h
        have hnc : idx.contains i = false :=
          contains_false_of_all_gt _ _ (fun j hj => intersectIdxAux_ge _ _ _ _ h j hj)
        have hni : i ∉ idx := by simpa using hnc
        have h1 : removeFromSliceAux idx i (x :: rest)
            = x :: removeFromSliceAux idx (i + 1) rest := by
          simp [removeFromSliceAux, hni]
        have hxm : genKey x ∈ m := by simpa using hm
        rw [h1, ih _ _ h]
        simp [List.filter_cons, hxm]
      · rw [if_neg hm] at h
        cases hscan : intersectIdxAux m (i + 1) rest with
        | error q => rw [hscan] at h; exact absurd h (by simp)
        | ok idxs =>
          rw [hscan] at h
          cases h
          have hself : ((i :: idxs).contains i) = true := by simp
          have hxm : genKey x ∉ m := by simpa using hm
          simp only [removeFromSliceAux, hself, if_pos rfl]
          rw [removeFromSliceAux_cons_irrelevant _ _ _ _ (Nat.lt_succ_self i), ih _ _ hscan]
          simp [List.filter_cons, hxm]
    · rw [if_neg hh] at h
      exact absurd h (by simp)

theorem intersectIdxAux_ok_of_flat (m : List Value) (l : List Value) (i : Nat)
    (hall : ∀ e ∈ l, isSlice e = false) : ∃ idx, intersectIdxAux m i l = .ok idx := by
  induction l generalizing i with
  | nil => exact ⟨[], rfl⟩
  | cons x rest ih =>
    have hh : hashable (genKey x) = true := hashable_genKey x (hall x (by simp))
    have hrest : ∀ e ∈ rest, isSlice e = false := fun e he => hall e (by simp [he])
    simp only [intersectIdxAux, if_pos hh]
    by_cases hm : m.contains (genKey x) = true
    · rw [if_pos hm]
      exact ih _ hrest
    · rw [if_neg hm]
      obtain ⟨idxs, hscan⟩ := ih (i + 1) hrest
      exact ⟨i :: idxs, by rw [hscan]⟩

theorem intersectIdxAux_error_mem (m : List Value) (l : List Value) (i : Nat) (p : GoPanic)
    (h : intersectIdxAux m i l = .error p) : ∃ e ∈ l, isSlice e = true := by
  induction l generalizing i p with
  | nil => simp [intersectIdxAux] at h
  | cons x rest ih =>
    simp only [intersectIdxAux] at h
    by_cases hh : hashable (genKey x) = true
    · rw [if_pos hh] at h
      by_cases hm : m.contains (genKey x) = true
      · rw [if_pos hm] at h
        obtain ⟨e, he, hs⟩ := ih _ _ h
        exact ⟨e, by simp [he], hs⟩
      · rw [if_neg hm] at h
        cases hscan : intersectIdxAux m (i + 1) rest with
        | error q =>
          obtain ⟨e, he, hs⟩ := ih _ _ hscan
          exact ⟨e, by simp [he], hs⟩
        | ok idxs => rw [hscan] at h; exact absurd h (by simp)
    · exact ⟨x, by simp, isSlice_of_not_hashable x (Bool.eq_false_iff.mpr hh)⟩

theorem concatLoop_ok_append (k : Kind) (m : List Value) (l : List Value) :
    ∀ (acc out : List Value), concatLoop k m acc l = .ok out →
      out = acc ++ l.filter (fun e => !(m.contains (genKey e))) := by
  induction l with
  | nil =>
    intro acc out h
    simp only [concatLoop] at h
    cases h; simp
  | cons x rest ih =>
    intro acc out h
    simp only [concatLoop] at h
    by_cases hh : hashable (genKey x) = true
    · rw [if_pos hh] at h
      by_cases hm : m.contains (genKey x) = true
      · rw [if_pos hm] at h
        have hxm : genKey x ∈ m := by simpa using hm
        rw [ih _ _ h]
        simp [List.filter_cons, hxm]
      · rw [if_neg hm] at h
        by_cases hk : (x.kind == k) = true
        · rw [if_pos hk] at h
          have hxm : genKey x ∉ m := by simpa using hm
          rw [ih _ _ h]
          simp [List.filter_cons, hxm]
        · rw [if_neg hk] at h
          exact absurd h (by simp)
    · rw [if_neg hh] at h
      exact absurd h (by simp)

theorem concatLoop_ok_of (k : Kind) (m : List Value) (l : List Value)
    (hall : ∀ e ∈ l, isSlice e = false ∧ e.kind = k) :
    ∀ acc, ∃ out, concatLoop k m acc l = .ok out := by
  induction l with
  | nil => exact fun acc => ⟨acc, rfl⟩
  | cons x rest ih =>
    intro acc
    have hh : hashable (genKey x) = true := hashable_genKey x (hall x (by simp)).1
    have hk : (x.kind == k) = true := by simp [(hall x (by simp)).2]
    have hrest : ∀ e ∈ rest, isSlice e = false ∧ e.kind = k :=
      fun e he => hall e (by simp [he])
    simp only [concatLoop, if_pos hh]
    by_cases hm : m.contains (genKey x) = true
    · rw [if_pos hm]
      exact ih hrest acc
    · rw [if_neg hm, if_pos hk]
      exact ih hrest (acc ++ [x])

theorem concatLoop_error_mem (k : Kind) (m : List Value) (l : List Value) (p : GoPanic) :
    ∀ acc, concatLoop k m acc l = .error p →
      ∃ e ∈ l, isSlice e = true ∨ e.kind ≠ k := by
  induction l with
  | nil => intro acc h; simp [concatLoop] at h
  | cons x rest ih =>
    intro acc h
    simp only [concatLoop] at h
    by_cases hh : hashable (genKey x) = true
    · rw [if_pos hh] at h
      by_cases hm : m.contains (genKey x) = true
      · rw [if_pos hm] at h
        obtain ⟨e, he, hs⟩ := ih _ h
        exact ⟨e, by simp [he], hs⟩
      · rw [if_neg hm] at h
        by_cases hk : (x.kind == k) = true
        · rw [if_pos hk] at h
          obtain ⟨e, he, hs⟩ := ih _ h
          exact ⟨e, by simp [he], hs⟩
        · exact ⟨x, by simp, Or.inr (by simpa using hk)⟩
    · exact ⟨x, by simp, Or.inl (isSlice_of_not_hashable x (Bool.eq_false_iff.mpr hh))⟩

theorem flattenFill_ok_of (k0 : Kind) (l : List Value) (hall : ∀ w ∈ l, w.kind = k0) :
    flattenFill k0 l = .ok l := by
  induction l with
  | nil => rfl
  | cons w rest ih =>
    have hk : (w.kind == k0) = true := by simp [hall w (by simp)]
    simp only [flattenFill, if_pos hk]
    rw [ih (fun x hx => hall x (by simp [hx]))]

theorem flattenFill_error_mem (k0 : Kind) (l : List Value) (p : GoPanic)
    (h : flattenFill k0 l = .error p) : ∃ w ∈ l, w.kind ≠ k0 := by
  induction l generalizing p with
  | nil => simp [flattenFill] at h
  | cons w rest ih =>
    simp only [flattenFill] at h
    by_cases hk : (w.kind == k0) = true
    · rw [if_pos hk] at h
      cases hfill : flattenFill k0 rest with
      | error q =>
        obtain ⟨e, he, hs⟩ := ih _ hfill
        exact ⟨e, by simp [he], hs⟩
      | ok out => rw [hfill] at h; exact absurd h (by simp)
    · exact ⟨w, by simp, by simpa using hk⟩

/-- Shape invariant of `Remove` through a pointer to a slice: the result is
again a pointer to a slice of the same element kind, and the pointer and
sequence shape errors cannot occur. -/
def RemoveShape (element : Value) : Prop :=
  ∀ (k : Kind) (elems : List Value), ∃ (err : Option GoError) (elems' : List Value),
    Remove (.byPtr (.vseq k elems)) element = (err, .byPtr (.vseq k elems'))
      ∧ err ≠ some GoError.ErrNotPointer ∧ err ≠ some GoError.ErrNotSlice

theorem removeList_shape (l : List Value) (ih : ∀ e ∈ l, RemoveShape e) :
    ∀ (k : Kind) (elems : List Value), ∃ (err : Option GoError) (elems' : List Value),
      removeList (.byPtr (.vseq k elems)) l = (err, .byPtr (.vseq k elems'))
        ∧ err ≠ some GoError.ErrNotPointer ∧ err ≠ some GoError.ErrNotSlice := by
  induction l with
  | nil =>
    intro k elems
    exact ⟨none, elems, by simp [removeList], by simp, by simp⟩
  | cons e rest ihl =>
    intro k elems
    obtain ⟨err, elems1, heq, hp, hs⟩ := ih e (by simp) k elems
    cases err with
    | some er =>
      exact ⟨some er, elems1, by simp [removeList, heq], hp, hs⟩
    | none =>
      obtain ⟨err2, elems2, heq2, hp2, hs2⟩ := ihl (fun x hx => ih x (by simp [hx])) k elems1
      exact ⟨err2, elems2, by simp [removeList, heq, heq2], hp2, hs2⟩

theorem remove_shape : ∀ (element : Value), RemoveShape element
  | .vint n => by
    intro k elems
    by_cases hk : (k == (Value.vint n).kind) = true
    · exact ⟨none, removeFromSlice (matchIdxAux (Value.vint n) 0 elems) elems,
        by simp [Remove, hk], by simp, by simp⟩
    · exact ⟨some .ErrNotSameType, elems, by simp [Remove, hk], by simp, by simp⟩
  | .vstr s => by
    intro k elems
    by_cases hk : (k == (Value.vstr s).kind) = true
    · exact ⟨none, removeFromSlice (matchIdxAux (Value.vstr s) 0 elems) elems,
        by simp [Remove, hk], by simp, by simp⟩
    · exact ⟨some .ErrNotSameType, elems, by simp [Remove, hk], by simp, by simp⟩
  | .vstruct j => by
    intro k elems
    by_cases hk : (k == (Value.vstruct j).kind) = true
    · exact ⟨none, removeFromSlice (matchIdxAux (Value.vstruct j) 0 elems) elems,
        by simp [Remove, hk], by simp, by simp⟩
    · exact ⟨some .ErrNotSameType, elems, by simp [Remove, hk], by simp, by simp⟩
  | .vseq ke nelems => by
    intro k elems
    have ih : ∀ e ∈ nelems, RemoveShape e := fun e _ => remove_shape e
    obtain ⟨err, elems', heq, hp, hs⟩ := removeList_shape nelems ih k elems
    exact ⟨err, elems', by simp [Remove, heq], hp, hs⟩
termination_by element => sizeOf element
decreasing_by
  rename_i he
  have h1 := List.sizeOf_lt_of_mem he
  simp only [Value.vseq.sizeOf_spec]
  omega

theorem contains_scalar (ks : Kind) (elems : List Value) (needle : Value)
    (h : isSlice needle = false) :
    Contains (.vseq ks elems) needle = (elems.contains needle, none) := by
  cases needle with
  | vseq ke l => simp [isSlice, Value.kind] at h
  | vint n => simp [Contains]
  | vstr s => simp [Contains]
  | vstruct j => simp [Contains]

theorem containsSeq_flat (kn : Kind) (nelems : List Value) (elems : List Value)
    (hflat : ∀ e ∈ elems, isSlice e = false) :
    containsSeq (.vseq kn nelems) elems
      = (elems.any (fun e => nelems.contains e), none) := by
  induction elems with
  | nil => simp [containsSeq]
  | cons e rest ih =>
    have he : isSlice e = false := hflat e (by simp)
    have hc : Contains (.vseq kn nelems) e = (nelems.contains e, none) :=
      contains_scalar kn nelems e he
    by_cases hm : nelems.contains e = true
    · simp only [containsSeq, hc, hm, List.any_cons, Bool.true_or]
    · have hmf : nelems.contains e = false := Bool.eq_false_iff.mpr hm
      simp only [containsSeq, hc, hmf, List.any_cons, Bool.false_or,
        ih (fun x hx => hflat x (by simp [hx]))]

theorem buildKeySet_contains_hasKey (delems : List Value) (m : List Value)
    (hks : buildKeySet [] delems = .ok m) (x : Value) :
    m.contains (genKey x) = hasKey delems x := by
  have h2 := buildKeySet_mem delems [] m hks (genKey x)
  simp only [List.not_mem_nil, false_or] at h2
  rw [Bool.eq_iff_iff]
  simp [hasKey, List.any_eq_true, h2]

theorem remove_scalar_error_unchanged (src : Arg) (e : Value) (err : GoError) (a' : Arg)
    (hs : isSlice e = false) (h : Remove src e = (some err, a')) : a' = src := by
  cases src with
  | byVal v =>
    simp only [Remove] at h
    exact (Prod.mk.injEq _ _ _ _ ▸ h).2.symm
  | byPtr v =>
    cases v with
    | vseq k elems =>
      cases e with
      | vseq ke l => simp [isSlice, Value.kind] at hs
      | vint n =>
        by_cases hk : (k == (Value.vint n).kind) = true
        · simp [Remove, hk] at h
        · simp only [Remove, hk, Bool.false_eq_true, if_false] at h
          exact (Prod.mk.injEq _ _ _ _ ▸ h).2.symm
      | vstr s =>
        by_cases hk : (k == (Value.vstr s).kind) = true
        · simp [Remove, hk] at h
        · simp only [Remove, hk, Bool.false_eq_true, if_false] at h
          exact (Prod.mk.injEq _ _ _ _ ▸ h).2.symm
      | vstruct j =>
        by_cases hk : (k == (Value.vstruct j).kind) = true
        · simp [Remove, hk] at h
        · simp only [Remove, hk, Bool.false_eq_true, if_false] at h
          exact (Prod.mk.injEq _ _ _ _ ▸ h).2.symm
    | vint n =>
      simp only [Remove] at h
      exact (Prod.mk.injEq _ _ _ _ ▸ h).2.symm
    | vstr s =>
      simp only [Remove] at h
      exact (Prod.mk.injEq _ _ _ _ ▸ h).2.symm
    | vstruct j =>
      simp only [Remove] at h
      exact (Prod.mk.injEq _ _ _ _ ▸ h).2.symm

/-- Claim C10: `Remove` through a mutable reference with an empty sequence
needle returns nil and leaves the sequence unchanged — the per-element
recursion runs zero times, so no element-kind check happens and nothing is
removed. -/
theorem remove_empty_needle_noop (k ek : Kind) (elems : List Value) :
    Remove (.byPtr (.vseq k elems)) (.vseq ek []) = (none, .byPtr (.vseq k elems)) := by
  simp [Remove, removeList]

/-- Claim C7: removing a scalar value `v` of the sequence's element kind with
`v ∈ s` removes exactly the deep-equal occurrences: afterwards `Contains`
returns false with nil error, the length shrinks by the number of occurrences,
and the remaining elements keep their relative order (the result is the
order-preserving filter of the original). -/
theorem remove_scalar_removes_all_occurrences (k : Kind) (elems : List Value) (v : Value)
    (hscalar : isSlice v = false) (hkind : v.kind = k) (hmem : elems.contains v = true) :
    Remove (.byPtr (.vseq k elems)) v
        = (none, .byPtr (.vseq k (elems.filter (fun x => !(x == v)))))
      ∧ Contains (.vseq k (elems.filter (fun x => !(x == v)))) v = (false, none)
      ∧ (elems.filter (fun x => !(x == v))).length = elems.length - elems.count v := by
  have hkb : (k == v.kind) = true := by simp [hkind]
  refine ⟨?_, ?_, ?_⟩
  · cases v with
    | vseq ke l => simp [isSlice, Value.kind] at hscalar
    | vint n => simp [Remove, hkb, removeFromSlice, removeFromSliceAux_matchIdx]
    | vstr s => simp [Remove, hkb, removeFromSlice, removeFromSliceAux_matchIdx]
    | vstruct j => simp [Remove, hkb, removeFromSlice, removeFromSliceAux_matchIdx]
  · rw [contains_scalar k _ v hscalar]
    have h1 : (elems.filter (fun x => !(x == v))).contains v = false := by
      simp [List.mem_filter]
    rw [h1]
  · have h1 : (elems.filter (fun x => !(x == v))).length
        = elems.countP (fun x => !(x == v)) :=
      (List.countP_eq_length_filter _ _).symm
    have h2 := List.length_eq_countP_add_countP (fun x => (x == v)) elems
    have h3 : elems.countP (fun a => !(a == v))
        = elems.countP (fun a => decide ¬((a == v) = true)) := by
      congr 1
      funext a
      by_cases hav : (a == v) = true <;> simp [hav]
    have h4 : elems.count v = elems.countP (fun x => (x == v)) := rfl
    rw [h1, h3, h4]
    omega

/-- Claim C7 witness: removal of the integer 1 from the sequence 1, 2, 1. -/
theorem remove_scalar_removes_all_occurrences_witness :
    Remove (.byPtr (.vseq .intK [Value.vint 1, Value.vint 2, Value.vint 1])) (Value.vint 1)
        = (none, .byPtr (.vseq .intK
            ([Value.vint 1, Value.vint 2, Value.vint 1].filter
              (fun x => !(x == Value.vint 1)))))
      ∧ Contains (.vseq .intK ([Value.vint 1, Value.vint 2, Value.vint 1].filter
            (fun x => !(x == Value.vint 1)))) (Value.vint 1) = (false, none)
      ∧ ([Value.vint 1, Value.vint 2, Value.vint 1].filter
            (fun x => !(x == Value.vint 1))).length
          = [Value.vint 1, Value.vint 2, Value.vint 1].length
            - [Value.vint 1, Value.vint 2, Value.vint 1].count (Value.vint 1) :=
  remove_scalar_removes_all_occurrences Kind.intK _ _ rfl rfl (by decide)

/-- Claim C8: `Remove` fails with `ErrNotPointer` exactly on non-pointer
sources, with `ErrNotSlice` exactly when the dereferenced value is not a
slice, and for a scalar needle with `ErrNotSameType` exactly when the needle's
kind differs from the element kind; each such error return leaves the caller's
sequence unreplaced. -/
theorem remove_error_taxonomy :
    (∀ (v e : Value), Remove (.byVal v) e = (some .ErrNotPointer, .byVal v))
    ∧ (∀ (v e : Value), (Remove (.byPtr v) e).1 ≠ some GoError.ErrNotPointer)
    ∧ (∀ (v e : Value), isSlice v = false →
        Remove (.byPtr v) e = (some .ErrNotSlice, .byPtr v))
    ∧ (∀ (k : Kind) (elems : List Value) (e : Value),
        (Remove (.byPtr (.vseq k elems)) e).1 ≠ some GoError.ErrNotSlice)
    ∧ (∀ (k : Kind) (elems : List Value) (e : Value), isSlice e = false →
        ((Remove (.byPtr (.vseq k elems)) e).1 = some GoError.ErrNotSameType
          ↔ e.kind ≠ k))
    ∧ (∀ (src : Arg) (e : Value) (err : GoError) (a' : Arg), isSlice e = false →
        Remove src e = (some err, a') → a' = src) := by
  refine ⟨?_, ?_, ?_, ?_, ?_, ?_⟩
  · intro v e; simp [Remove]
  · intro v e
    cases v with
    | vseq k elems =>
      obtain ⟨err, elems', heq, hp, _⟩ := remove_shape e k elems
      rw [heq]
      exact hp
    | vint n => simp [Remove]
    | vstr s => simp [Remove]
    | vstruct j => simp [Remove]
  · intro v e hv
    cases v with
    | vseq k elems => simp [isSlice, Value.kind] at hv
    | vint n => simp [Remove]
    | vstr s => simp [Remove]
    | vstruct j => simp [Remove]
  · intro k elems e
    obtain ⟨err, elems', heq, _, hs⟩ := remove_shape e k elems
    rw [heq]
    exact hs
  · intro k elems e he
    cases e with
    | vseq ke l => simp [isSlice, Value.kind] at he
    | vint n =>
      by_cases hk : (k == (Value.vint n).kind) = true
      · simp [Remove, hk, (beq_iff_eq.mp hk).symm]
      · simp [Remove, hk]
        exact fun hc => hk (by simp [hc])
    | vstr s =>
      by_cases hk : (k == (Value.vstr s).kind) = true
      · simp [Remove, hk, (beq_iff_eq.mp hk).symm]
      · simp [Remove, hk]
        exact fun hc => hk (by simp [hc])
    | vstruct j =>
      by_cases hk : (k == (Value.vstruct j).kind) = true
      · simp [Remove, hk, (beq_iff_eq.mp hk).symm]
      · simp [Remove, hk]
        exact fun hc => hk (by simp [hc])
  · exact fun src e err a' hs h => remove_scalar_error_unchanged src e err a' hs h

/-- Claim C8 witness: removing a string needle from an integer sequence fails
with the type-mismatch sentinel. -/
theorem remove_error_taxonomy_witness :
    (Remove (.byPtr (.vseq .intK [])) (Value.vstr "a")).1
      = some GoError.ErrNotSameType :=
  (remove_error_taxonomy.2.2.2.2.1 Kind.intK [] (Value.vstr "a") rfl).mpr (by decide)

/-- A type of the host language restricted to the modelled value universe:
scalars, and slices that are homogeneous at every level.  Every value the
program can actually be handed is a value of some such type — Go slices carry
one element type, so a sequence whose elements have differing kinds at some
depth has no type and cannot be constructed. -/
inductive GoType where
  | intT
  | stringT
  | structT
  | sliceT (elem : GoType)
deriving DecidableEq, Repr

/-- Kind of a Go type. -/
def GoType.kind : GoType → Kind
  | .intT => .intK
  | .stringT => .stringK
  | .structT => .structK
  | .sliceT _ => .sliceK

/-- Base kind of a Go type: the kind of the scalar type under every slice
layer.  `Remove`'s element-kind checks on a needle of type `t` all compare
this one kind against the source's element kind. -/
def GoType.baseKind : GoType → Kind
  | .sliceT t => t.baseKind
  | t => t.kind

/-- Whether a value is a well-typed value of type `t`: a typed slice's static
element kind is its element type's kind, and all its elements have that
element type. -/
def hasType : Value → GoType → Bool
  | .vint _, .intT => true
  | .vstr _, .stringT => true
  | .vstruct _, .structT => true
  | .vseq k elems, .sliceT t => (k == t.kind) && elems.all (fun e => hasType e t)
  | _, _ => false

/-- On a source of element kind equal to the needle type's base kind, `Remove`
with any needle of that type never returns an error: every scalar leaf of the
recursion passes the kind check. -/
theorem remove_typed_succeeds : ∀ (t : GoType) (needle : Value),
    hasType needle t = true → ∀ (k : Kind), t.baseKind = k → ∀ (elems : List Value),
    ∃ elems', Remove (.byPtr (.vseq k elems)) needle = (none, .byPtr (.vseq k elems'))
  | .intT, needle, ht, k, hb, elems => by
    cases needle with
    | vint n =>
      have hk : (k == (Value.vint n).kind) = true := by
        simp [← hb, GoType.baseKind, GoType.kind, Value.kind]
      exact ⟨removeFromSlice (matchIdxAux (Value.vint n) 0 elems) elems,
        by simp [Remove, hk]⟩
    | vstr s => simp [hasType] at ht
    | vstruct j => simp [hasType] at ht
    | vseq kn l => simp [hasType] at ht
  | .stringT, needle, ht, k, hb, elems => by
    cases needle with
    | vstr s =>
      have hk : (k == (Value.vstr s).kind) = true := by
        simp [← hb, GoType.baseKind, GoType.kind, Value.kind]
      exact ⟨removeFromSlice (matchIdxAux (Value.vstr s) 0 elems) elems,
        by simp [Remove, hk]⟩
    | vint n => simp [hasType] at ht
    | vstruct j => simp [hasType] at ht
    | vseq kn l => simp [hasType] at ht
  | .structT, needle, ht, k, hb, elems => by
    cases needle with
    | vstruct j =>
      have hk : (k == (Value.vstruct j).kind) = true := by
        simp [← hb, GoType.baseKind, GoType.kind, Value.kind]
      exact ⟨removeFromSlice (matchIdxAux (Value.vstruct j) 0 elems) elems,
        by simp [Remove, hk]⟩
    | vint n => simp [hasType] at ht
    | vstr s => simp [hasType] at ht
    | vseq kn l => simp [hasType] at ht
  | .sliceT u, needle, ht, k, hb, elems => by
    cases needle with
    | vseq kn nelems =>
      simp only [hasType, Bool.and_eq_true, List.all_eq_true] at ht
      have hb' : u.baseKind = k := hb
      have hlist : ∀ (l : List Value), (∀ e ∈ l, hasType e u = true) →
          ∀ (es : List Value), ∃ es',
            removeList (.byPtr (.vseq k es)) l = (none, .byPtr (.vseq k es')) := by
        intro l
        induction l with
        | nil => exact fun _ es => ⟨es, by simp [removeList]⟩
        | cons e rest ih =>
          intro hall es
          obtain ⟨es1, h1⟩ := remove_typed_succeeds u e (hall e (by simp)) k hb' es
          obtain ⟨es2, h2⟩ := ih (fun x hx => hall x (by simp [hx])) es1
          exact ⟨es2, by simp [removeList, h1, h2]⟩
      obtain ⟨es', h'⟩ := hlist nelems ht.2 elems
      exact ⟨es', by simp [Remove, h']⟩
    | vint n => simp [hasType] at ht
    | vstr s => simp [hasType] at ht
    | vstruct j => simp [hasType] at ht

/-- On a source of element kind different from the needle type's base kind,
`Remove` never mutates: every scalar leaf of the recursion fails the uniform
kind check before removing anything, so the call returns either nil (the
needle is an empty nest of slices) or `ErrNotSameType`, in both cases with
the pointee exactly as it was. -/
theorem remove_typed_mismatch_unchanged : ∀ (t : GoType) (needle : Value),
    hasType needle t = true → ∀ (k : Kind), t.baseKind ≠ k → ∀ (elems : List Value),
    Remove (.byPtr (.vseq k elems)) needle = (none, .byPtr (.vseq k elems))
    ∨ Remove (.byPtr (.vseq k elems)) needle
        = (some .ErrNotSameType, .byPtr (.vseq k elems))
  | .intT, needle, ht, k, hb, elems => by
    cases needle with
    | vint n =>
      have hk : (k == (Value.vint n).kind) = false := by
        simp only [Value.kind, beq_eq_false_iff_ne]
        exact fun hc => hb (by simp [GoType.baseKind, GoType.kind, hc])
      exact Or.inr (by simp [Remove, hk])
    | vstr s => simp [hasType] at ht
    | vstruct j => simp [hasType] at ht
    | vseq kn l => simp [hasType] at ht
  | .stringT, needle, ht, k, hb, elems => by
    cases needle with
    | vstr s =>
      have hk : (k == (Value.vstr s).kind) = false := by
        simp only [Value.kind, beq_eq_false_iff_ne]
        exact fun hc => hb (by simp [GoType.baseKind, GoType.kind, hc])
      exact Or.inr (by simp [Remove, hk])
    | vint n => simp [hasType] at ht
    | vstruct j => simp [hasType] at ht
    | vseq kn l => simp [hasType] at ht
  | .structT, needle, ht, k, hb, elems => by
    cases needle with
    | vstruct j =>
      have hk : (k == (Value.vstruct j).kind) = false := by
        simp only [Value.kind, beq_eq_false_iff_ne]
        exact fun hc => hb (by simp [GoType.baseKind, GoType.kind, hc])
      exact Or.inr (by simp [Remove, hk])
    | vint n => simp [hasType] at ht
    | vstr s => simp [hasType] at ht
    | vseq kn l => simp [hasType] at ht
  | .sliceT u, needle, ht, k, hb, elems => by
    cases needle with
    | vseq kn nelems =>
      simp only [hasType, Bool.and_eq_true, List.all_eq_true] at ht
      have hb' : u.baseKind ≠ k := hb
      have hlist : ∀ (l : List Value), (∀ e ∈ l, hasType e u = true) →
          removeList (.byPtr (.vseq k elems)) l = (none, .byPtr (.vseq k elems))
          ∨ removeList (.byPtr (.vseq k elems)) l
              = (some .ErrNotSameType, .byPtr (.vseq k elems)) := by
        intro l
        induction l with
        | nil => exact fun _ => Or.inl (by simp [removeList])
        | cons e rest ih =>
          intro hall
          rcases remove_typed_mismatch_unchanged u e (hall e (by simp)) k hb' elems
            with h1 | h1
          · rcases ih (fun x hx => hall x (by simp [hx])) with h2 | h2
            · exact Or.inl (by simp [removeList, h1, h2])
            · exact Or.inr (by simp [removeList, h1, h2])
          · exact Or.inr (by simp [removeList, h1])
      rcases hlist nelems ht.2 with h' | h'
      · exact Or.inl (by simp [Remove, h'])
      · exact Or.inr (by simp [Remove, h'])
    | vint n => simp [hasType] at ht
    | vstr s => simp [hasType] at ht
    | vstruct j => simp [hasType] at ht

/-- Claim C4: every public mutating operation is atomic.  Unique, Intersect,
Concat and Replace leave the caller's argument unchanged on every returned
error; and for every needle that is a value of some host-language type —
typed slices are kind-homogeneous at every level, so a needle with elements
of genuinely mixed kinds is not constructible — `Remove`'s element-kind check
compares the type's one base kind against the source's element kind at every
leaf of the recursion, hence a `TypeMismatch` fires before any element has
been removed and every error return leaves the caller's sequence exactly as
it was. -/
theorem mutating_operations_atomic :
    (∀ (src : Arg) (err : GoError) (a' : Arg),
        Unique src = .ok (some err, a') → a' = src)
    ∧ (∀ (src : Arg) (dst : Value) (err : GoError) (a' : Arg),
        Intersect src dst = .ok (some err, a') → a' = src)
    ∧ (∀ (src : Arg) (dst : Value) (err : GoError) (a' : Arg),
        Concat src dst = .ok (some err, a') → a' = src)
    ∧ (∀ (src : Arg) (old nw : Value) (err : GoError) (a' : Arg),
        Replace src old nw = .ok (some err, a') → a' = src)
    ∧ (∀ (needle : Value) (t : GoType), hasType needle t = true →
        ∀ (src : Arg) (err : GoError) (a' : Arg),
          Remove src needle = (some err, a') → a' = src) := by
  refine ⟨?_, ?_, ?_, ?_, ?_⟩
  · intro src err a' h
    cases src with
    | byVal v =>
      simp only [Unique, Except.ok.injEq, Prod.mk.injEq] at h
      exact h.2.symm
    | byPtr v =>
      cases v with
      | vseq k elems =>
        cases hscan : uniqueScanAux elems [] 0 with
        | error p => simp [Unique, hscan] at h
        | ok idx => simp [Unique, hscan] at h
      | vint n =>
        simp only [Unique, Except.ok.injEq, Prod.mk.injEq] at h
        exact h.2.symm
      | vstr s =>
        simp only [Unique, Except.ok.injEq, Prod.mk.injEq] at h
        exact h.2.symm
      | vstruct j =>
        simp only [Unique, Except.ok.injEq, Prod.mk.injEq] at h
        exact h.2.symm
  · intro src dst err a' h
    cases src with
    | byVal v =>
      simp only [Intersect, Except.ok.injEq, Prod.mk.injEq] at h
      exact h.2.symm
    | byPtr v =>
      cases v with
      | vseq k elems =>
        cases dst with
        | vseq kd delems =>
          cases hks : buildKeySet [] delems with
          | error p => simp [Intersect, hks] at h
          | ok m =>
            cases hidx : intersectIdxAux m 0 elems with
            | error p => simp [Intersect, hks, hidx] at h
            | ok idx => simp [Intersect, hks, hidx] at h
        | vint n =>
          simp only [Intersect, Except.ok.injEq, Prod.mk.injEq] at h
          exact h.2.symm
        | vstr s =>
          simp only [Intersect, Except.ok.injEq, Prod.mk.injEq] at h
          exact h.2.symm
        | vstruct j =>
          simp only [Intersect, Except.ok.injEq, Prod.mk.injEq] at h
          exact h.2.symm
      | vint n =>
        simp only [Intersect, Except.ok.injEq, Prod.mk.injEq] at h
        exact h.2.symm
      | vstr s =>
        simp only [Intersect, Except.ok.injEq, Prod.mk.injEq] at h
        exact h.2.symm
      | vstruct j =>
        simp only [Intersect, Except.ok.injEq, Prod.mk.injEq] at h
        exact h.2.symm
  · intro src dst err a' h
    cases src with
    | byVal v =>
      simp only [Concat, Except.ok.injEq, Prod.mk.injEq] at h
      exact h.2.symm
    | byPtr v =>
      cases v with
      | vseq k elems =>
        cases hks : buildKeySet [] elems with
        | error p => simp [Concat, hks] at h
        | ok m =>
          cases dst with
          | vseq kd delems =>
            cases hcl : concatLoop k m elems delems with
            | error p => simp [Concat, hks, hcl] at h
            | ok out => simp [Concat, hks, hcl] at h
          | vint n =>
            by_cases hk : ((Value.vint n).kind == k) = true
            · simp only [Concat, hks, hk, if_true] at h
              split at h <;> simp at h
            · simp only [Concat, hks, hk, Bool.false_eq_true, if_false,
                Except.ok.injEq, Prod.mk.injEq] at h
              exact h.2.symm
          | vstr s =>
            by_cases hk : ((Value.vstr s).kind == k) = true
            · simp only [Concat, hks, hk, if_true] at h
              split at h <;> simp at h
            · simp only [Concat, hks, hk, Bool.false_eq_true, if_false,
                Except.ok.injEq, Prod.mk.injEq] at h
              exact h.2.symm
          | vstruct j =>
            by_cases hk : ((Value.vstruct j).kind == k) = true
            · simp only [Concat, hks, hk, if_true] at h
              split at h <;> simp at h
            · simp only [Concat, hks, hk, Bool.false_eq_true, if_false,
                Except.ok.injEq, Prod.mk.injEq] at h
              exact h.2.symm
      | vint n =>
        simp only [Concat, Except.ok.injEq, Prod.mk.injEq] at h
        exact h.2.symm
      | vstr s =>
        simp only [Concat, Except.ok.injEq, Prod.mk.injEq] at h
        exact h.2.symm
      | vstruct j =>
        simp only [Concat, Except.ok.injEq, Prod.mk.injEq] at h
        exact h.2.symm
  · intro src old nw err a' h
    cases src with
    | byVal v =>
      simp only [Replace, Except.ok.injEq, Prod.mk.injEq] at h
      exact h.2.symm
    | byPtr v =>
      cases v with
      | vseq k elems =>
        by_cases hk : (k == nw.kind) = true
        · simp [Replace, hk] at h
        · simp only [Replace, hk, Bool.false_eq_true, if_false,
            Except.ok.injEq, Prod.mk.injEq] at h
          exact h.2.symm
      | vint n => simp [Replace] at h
      | vstr s => simp [Replace] at h
      | vstruct j => simp [Replace] at h
  · intro needle t ht src err a' h
    cases src with
    | byVal v =>
      simp only [Remove, Prod.mk.injEq] at h
      exact h.2.symm
    | byPtr v =>
      cases v with
      | vseq k elems =>
        by_cases hb : t.baseKind = k
        · obtain ⟨es', h'⟩ := remove_typed_succeeds t needle ht k hb elems
          rw [h'] at h
          simp at h
        · rcases remove_typed_mismatch_unchanged t needle ht k hb elems with h' | h'
          · rw [h'] at h
            simp at h
          · rw [h'] at h
            exact (Prod.mk.injEq _ _ _ _ ▸ h).2.symm
      | vint n =>
        simp only [Remove, Prod.mk.injEq] at h
        exact h.2.symm
      | vstr s =>
        simp only [Remove, Prod.mk.injEq] at h
        exact h.2.symm
      | vstruct j =>
        simp only [Remove, Prod.mk.injEq] at h
        exact h.2.symm

/-- Claim C4 witness: removing the typed string-sequence needle consisting of
"a" from an integer sequence fails with `ErrNotSameType` at the first needle
element and leaves the sequence unchanged. -/
theorem mutating_operations_atomic_witness :
    Arg.byPtr (Value.vseq Kind.intK [Value.vint 1])
      = Arg.byPtr (Value.vseq Kind.intK [Value.vint 1]) :=
  mutating_operations_atomic.2.2.2.2 (Value.vseq Kind.stringK [Value.vstr "a"])
    (GoType.sliceT GoType.stringT) (by decide)
    (Arg.byPtr (Value.vseq Kind.intK [Value.vint 1])) GoError.ErrNotSameType
    (Arg.byPtr (Value.vseq Kind.intK [Value.vint 1]))
    (by simp [Remove, removeList, Value.kind])

/-- Claim C5 counterexample: with the nested source consisting of the single
sequence 1, 2 and the needle sequence consisting of 2, `Contains` returns true
although no element of the needle is structurally equal to any element of the
source — the recursion descends into the source's inner sequence, so the
claimed "exactly when" characterization fails. -/
theorem contains_nested_needle_cex :
    Contains (.vseq .sliceK [.vseq .intK [Value.vint 1, Value.vint 2]])
        (.vseq .intK [Value.vint 2])
      = (true, none)
    ∧ ∀ x ∈ [Value.vint 2],
        ∀ y ∈ [Value.vseq Kind.intK [Value.vint 1, Value.vint 2]], x ≠ y := by
  constructor
  · simp [Contains, containsSeq]
  · decide

/-- Claim C5 (amended): for a scalar needle, `Contains` returns true with nil
error exactly when some source element is structurally equal to the needle;
for a sequence needle the claimed any-match characterization holds whenever
the source's own elements are not sequences. -/
theorem contains_membership_characterization (ks : Kind) (elems : List Value) :
    (∀ needle : Value, isSlice needle = false →
       Contains (.vseq ks elems) needle = (elems.contains needle, none))
    ∧ (∀ (kn : Kind) (nelems : List Value), (∀ e ∈ elems, isSlice e = false) →
       Contains (.vseq ks elems) (.vseq kn nelems)
         = (nelems.any (fun x => elems.contains x), none)) := by
  constructor
  · exact fun needle h => contains_scalar ks elems needle h
  · intro kn nelems hflat
    have h1 : Contains (.vseq ks elems) (.vseq kn nelems)
        = containsSeq (.vseq kn nelems) elems := by
      simp [Contains]
    rw [h1, containsSeq_flat kn nelems elems hflat]
    have h2 : elems.any (fun e => nelems.contains e)
        = nelems.any (fun x => elems.contains x) := by
      rw [Bool.eq_iff_iff]
      simp only [List.any_eq_true, List.elem_eq_mem, decide_eq_true_eq]
      exact ⟨fun ⟨e, h1, h2⟩ => ⟨e, h2, h1⟩, fun ⟨e, h1, h2⟩ => ⟨e, h2, h1⟩⟩
    rw [h2]

/-- Claim C5 witness: the spec's own example, `Contains([1,2,3], [2,5])`,
evaluates to true with nil error through the amended characterization. -/
theorem contains_membership_characterization_witness :
    Contains (.vseq .intK [Value.vint 1, Value.vint 2, Value.vint 3])
        (.vseq .intK [Value.vint 2, Value.vint 5])
      = (true, none) :=
  ((contains_membership_characterization Kind.intK
      [Value.vint 1, Value.vint 2, Value.vint 3]).2 Kind.intK
      [Value.vint 2, Value.vint 5] (by decide)).trans (by decide)

/-- Claim C6: when `Unique` succeeds on a sequence it keeps exactly the first
occurrence of each distinct equality key in first-occurrence order, and it is
idempotent — running it again on the result succeeds and changes nothing. -/
theorem unique_first_occurrence_and_idempotent (k : Kind) (elems out : List Value)
    (h : Unique (.byPtr (.vseq k elems)) = .ok (none, .byPtr (.vseq k out))) :
    out = specFirstOccurrences elems
    ∧ Unique (.byPtr (.vseq k out)) = .ok (none, .byPtr (.vseq k out)) := by
  cases hscan : uniqueScanAux elems [] 0 with
  | error p => simp [Unique, hscan] at h
  | ok idx =>
    simp only [Unique, hscan, Except.ok.injEq, Prod.mk.injEq, Arg.byPtr.injEq,
      Value.vseq.injEq, true_and] at h
    have hout : out = uniqueList [] elems := by
      rw [← h]
      exact uniqueScanAux_removeFromSlice elems [] 0 idx hscan
    have hhash : ∀ e ∈ elems, hashable (genKey e) = true :=
      uniqueScanAux_hashable elems [] 0 idx hscan
    have hscan2 : uniqueScanAux out [] 0 = .ok [] := by
      rw [hout]
      apply uniqueScanAux_nodup
      · exact fun e he => hhash e (uniqueList_mem [] elems e he)
      · intro e _; rfl
      · exact uniqueList_pairwise [] elems
    refine ⟨hout.trans (uniqueList_nil_eq_spec elems), ?_⟩
    simp only [Unique, hscan2]
    rw [removeFromSlice, removeFromSliceAux_nil_idx]

/-- Claim C6 witness: deduplicating the sequence 1, 1, 2 yields 1, 2, which a
second run leaves unchanged. -/
theorem unique_first_occurrence_and_idempotent_witness :
    [Value.vint 1, Value.vint 2]
        = specFirstOccurrences [Value.vint 1, Value.vint 1, Value.vint 2]
    ∧ Unique (.byPtr (.vseq .intK [Value.vint 1, Value.vint 2]))
        = .ok (none, .byPtr (.vseq .intK [Value.vint 1, Value.vint 2])) :=
  unique_first_occurrence_and_idempotent Kind.intK
    [Value.vint 1, Value.vint 1, Value.vint 2] [Value.vint 1, Value.vint 2] rfl

/-- Claim C9: when `Intersect` succeeds, the source has been filtered in place
to exactly the elements whose equality key occurs in the second sequence —
source order preserved, duplicate matching elements all retained — and the
length never grows; the second sequence is read-only throughout. -/
theorem intersect_keeps_keys_of_second (k kd : Kind) (elems delems out : List Value)
    (h : Intersect (.byPtr (.vseq k elems)) (.vseq kd delems)
        = .ok (none, .byPtr (.vseq k out))) :
    out = elems.filter (fun e => hasKey delems e)
    ∧ (∀ e ∈ out, hasKey delems e = true)
    ∧ out.length ≤ elems.length := by
  cases hks : buildKeySet [] delems with
  | error p => simp [Intersect, hks] at h
  | ok m =>
    cases hidx : intersectIdxAux m 0 elems with
    | error p => simp [Intersect, hks, hidx] at h
    | ok idx =>
      simp only [Intersect, hks, hidx, Except.ok.injEq, Prod.mk.injEq,
        Arg.byPtr.injEq, Value.vseq.injEq, true_and] at h
      have hr := intersectIdxAux_removeFromSlice m elems 0 idx hidx
      have hfeq : elems.filter (fun e => m.contains (genKey e))
          = elems.filter (fun e => hasKey delems e) := by
        refine List.filter_congr (fun e _ => ?_)
        rw [buildKeySet_contains_hasKey delems m hks e]
      have hout : out = elems.filter (fun e => hasKey delems e) := by
        rw [← h, removeFromSlice, hr, hfeq]
      refine ⟨hout, ?_, ?_⟩
      · intro e he
        rw [hout] at he
        exact (List.mem_filter.mp he).2
      · rw [hout]
        exact List.length_filter_le _ _

/-- Claim C9 witness: intersecting 1, 2, 1, 3 with 1, 2 keeps 1, 2, 1 —
duplicates retained in source order, length not increased. -/
theorem intersect_keeps_keys_of_second_witness :
    [Value.vint 1, Value.vint 2, Value.vint 1]
        = [Value.vint 1, Value.vint 2, Value.vint 1, Value.vint 3].filter
            (fun e => hasKey [Value.vint 1, Value.vint 2] e)
    ∧ (∀ e ∈ [Value.vint 1, Value.vint 2, Value.vint 1],
        hasKey [Value.vint 1, Value.vint 2] e = true)
    ∧ ([Value.vint 1, Value.vint 2, Value.vint 1] : List Value).length
        ≤ ([Value.vint 1, Value.vint 2, Value.vint 1, Value.vint 3] : List Value).length :=
  intersect_keeps_keys_of_second Kind.intK Kind.intK
    [Value.vint 1, Value.vint 2, Value.vint 1, Value.vint 3]
    [Value.vint 1, Value.vint 2] [Value.vint 1, Value.vint 2, Value.vint 1] rfl

/-- Claim C1 counterexample: concatenating the addend 2, 2 onto the
destination 1 succeeds and yields 1, 2, 2 — the key 2, absent from the
destination's prior contents, is appended twice because the key set is never
extended during the loop, so the call introduces a duplicate key, refuting the
claimed guarantee exactly in the addend-with-repeated-key case the claim
singles out. -/
theorem concat_duplicate_addend_cex :
    Concat (.byPtr (.vseq .intK [Value.vint 1])) (.vseq .intK [Value.vint 2, Value.vint 2])
      = .ok (none, .byPtr (.vseq .intK [Value.vint 1, Value.vint 2, Value.vint 2]))
    ∧ [Value.vint 1, Value.vint 2, Value.vint 2].count (Value.vint 2) = 2
    ∧ [Value.vint 1].count (Value.vint 2) = 0 := by
  refine ⟨rfl, by decide, by decide⟩

/-- Claim C1 (amended): a successful slice-addend `Concat` appends exactly the
addend values whose equality key is absent from the destination's prior
contents, in addend order, and every appended value's key is new relative to
the prior destination; however, an absent key occurring several times in the
addend is appended that many times, so duplicates among the appended values
themselves are possible. -/
theorem concat_appends_exactly_absent_keys (k ak : Kind) (elems delems out : List Value)
    (h : Concat (.byPtr (.vseq k elems)) (.vseq ak delems)
        = .ok (none, .byPtr (.vseq k out))) :
    out = elems ++ delems.filter (fun e => !(hasKey elems e))
    ∧ ∀ e ∈ delems.filter (fun e => !(hasKey elems e)), hasKey elems e = false := by
  cases hks : buildKeySet [] elems with
  | error p => simp [Concat, hks] at h
  | ok m =>
    cases hcl : concatLoop k m elems delems with
    | error p => simp [Concat, hks, hcl] at h
    | ok out' =>
      simp only [Concat, hks, hcl, Except.ok.injEq, Prod.mk.injEq, Arg.byPtr.injEq,
        Value.vseq.injEq, true_and] at h
      have h1 := concatLoop_ok_append k m delems elems out' hcl
      have hfeq : delems.filter (fun e => !(m.contains (genKey e)))
          = delems.filter (fun e => !(hasKey elems e)) := by
        refine List.filter_congr (fun e _ => ?_)
        rw [buildKeySet_contains_hasKey elems m hks e]
      constructor
      · rw [← h, h1, hfeq]
      · intro e he
        have h2 := (List.mem_filter.mp he).2
        simpa using h2

/-- Claim C1 witness: appending 2 to the destination 1 appends exactly the
absent-key value. -/
theorem concat_appends_exactly_absent_keys_witness :
    [Value.vint 1, Value.vint 2]
        = [Value.vint 1] ++ [Value.vint 2].filter (fun e => !(hasKey [Value.vint 1] e))
    ∧ ∀ e ∈ [Value.vint 2].filter (fun e => !(hasKey [Value.vint 1] e)),
        hasKey [Value.vint 1] e = false :=
  concat_appends_exactly_absent_keys Kind.intK Kind.intK [Value.vint 1]
    [Value.vint 2] [Value.vint 1, Value.vint 2] rfl

/-- Claim C3 (code bug at the empty input): `Flatten([[1,2],[3]])` is
`[1,2,3]` and `Flatten([1,2,3])` passes through unchanged, both with nil
error, as claimed; but `Flatten` of an empty sequence, which the claim says is
returned unchanged, instead panics: after the vacuous all-elements-are-slices
scan the code reads `sv.Index(0).Index(0)` to learn the element type, which is
an index-out-of-range on an empty slice. -/
theorem flatten_examples_and_empty_input_panic :
    Flatten (.vseq .sliceK [.vseq .intK [Value.vint 1, Value.vint 2],
        .vseq .intK [Value.vint 3]])
      = .ok (.vseq .intK [Value.vint 1, Value.vint 2, Value.vint 3], none)
    ∧ Flatten (.vseq .intK [Value.vint 1, Value.vint 2, Value.vint 3])
      = .ok (.vseq .intK [Value.vint 1, Value.vint 2, Value.vint 3], none)
    ∧ Flatten (.vseq .intK []) = .error .indexOutOfRange :=
  ⟨rfl, rfl, rfl⟩

/-- Claim C2 counterexample: three public operations abort with a runtime
panic instead of returning an error value — `Replace` on a pointer to a
non-sequence (`Type.Elem()` of a non-container), `Unique` on a sequence of
sequences (unhashable map key), and `Flatten` on a sequence of sequences whose
first inner sequence is empty (index out of range). -/
theorem panic_cases_cex :
    Replace (.byPtr (.vint 5)) (.vint 1) (.vint 2) = .error .elemOfNonContainer
    ∧ Unique (.byPtr (.vseq .sliceK [.vseq .intK [Value.vint 1]]))
        = .error .unhashableKey
    ∧ Flatten (.vseq .sliceK [.vseq .intK [], .vseq .intK [Value.vint 1]])
        = .error .indexOutOfRange :=
  ⟨rfl, rfl, rfl⟩

/-- Claim C2 (amended): a runtime panic can escape only in these cases —
`Replace` given a pointer to a non-sequence; `Unique` when some element of
the sequence is itself a sequence; `Intersect` when either sequence holds a
sequence-valued element; `Concat` when the destination holds a
sequence-valued element or a sequence addend holds an element that is a
sequence or whose kind differs from the destination's element kind; `Flatten`
when every element is a sequence and the outer sequence is empty, or its
first inner sequence is empty, or some inner element's kind differs from the
first inner element's.  On every other input the operations terminate
normally, reporting shape and type conditions as returned error values
(`Contains` and `Remove` contain no panic source at all). -/
theorem panic_only_on_unsupported_shapes :
    (∀ (src : Arg) (old nw : Value) (p : GoPanic), Replace src old nw = .error p →
       ∃ v, src = .byPtr v ∧ isSlice v = false)
    ∧ (∀ (src : Arg) (p : GoPanic), Unique src = .error p →
       ∃ (k : Kind) (elems : List Value), src = .byPtr (.vseq k elems)
         ∧ ∃ e ∈ elems, isSlice e = true)
    ∧ (∀ (src : Arg) (dst : Value) (p : GoPanic), Intersect src dst = .error p →
       ∃ (k : Kind) (elems : List Value) (kd : Kind) (delems : List Value),
         src = .byPtr (.vseq k elems) ∧ dst = .vseq kd delems
           ∧ ∃ e, (e ∈ elems ∨ e ∈ delems) ∧ isSlice e = true)
    ∧ (∀ (src : Arg) (dst : Value) (p : GoPanic), Concat src dst = .error p →
       ∃ (k : Kind) (elems : List Value), src = .byPtr (.vseq k elems)
         ∧ ((∃ e ∈ elems, isSlice e = true)
            ∨ ∃ (kd : Kind) (delems : List Value), dst = .vseq kd delems
                ∧ ∃ e ∈ delems, isSlice e = true ∨ e.kind ≠ k))
    ∧ (∀ (v : Value) (p : GoPanic), Flatten v = .error p →
       ∃ (k : Kind) (elems : List Value), v = .vseq k elems
         ∧ elems.all isSlice = true
         ∧ (elems = []
            ∨ ∃ e0 rest, elems = e0 :: rest
                ∧ (seqElems e0 = []
                   ∨ ∃ w0 tail0, seqElems e0 = w0 :: tail0
                       ∧ ∃ w ∈ (elems.map seqElems).flatten, w.kind ≠ w0.kind))) := by
  refine ⟨?_, ?_, ?_, ?_, ?_⟩
  · intro src old nw p h
    cases src with
    | byVal v => simp [Replace] at h
    | byPtr v =>
      cases v with
      | vseq k elems =>
        by_cases hk : (k == nw.kind) = true
        · simp [Replace, hk] at h
        · simp [Replace, hk] at h
      | vint n => exact ⟨Value.vint n, rfl, rfl⟩
      | vstr s => exact ⟨Value.vstr s, rfl, rfl⟩
      | vstruct j => exact ⟨Value.vstruct j, rfl, rfl⟩
  · intro src p h
    cases src with
    | byVal v => simp [Unique] at h
    | byPtr v =>
      cases v with
      | vseq k elems =>
        cases hscan : uniqueScanAux elems [] 0 with
        | error q =>
          obtain ⟨e, he, hs⟩ := uniqueScanAux_error_mem elems [] 0 q hscan
          exact ⟨k, elems, rfl, e, he, hs⟩
        | ok idx => simp [Unique, hscan] at h
      | vint n => simp [Unique] at h
      | vstr s => simp [Unique] at h
      | vstruct j => simp [Unique] at h
  · intro src dst p h
    cases src with
    | byVal v => simp [Intersect] at h
    | byPtr v =>
      cases v with
      | vseq k elems =>
        cases dst with
        | vseq kd delems =>
          cases hks : buildKeySet [] delems with
          | error q =>
            obtain ⟨e, he, hs⟩ := buildKeySet_error_mem delems [] q hks
            exact ⟨k, elems, kd, delems, rfl, rfl, e, Or.inr he, hs⟩
          | ok m =>
            cases hidx : intersectIdxAux m 0 elems with
            | error q =>
              obtain ⟨e, he, hs⟩ := intersectIdxAux_error_mem m elems 0 q hidx
              exact ⟨k, elems, kd, delems, rfl, rfl, e, Or.inl he, hs⟩
            | ok idx => simp [Intersect, hks, hidx] at h
        | vint n => simp [Intersect] at h
        | vstr s => simp [Intersect] at h
        | vstruct j => simp [Intersect] at h
      | vint n => simp [Intersect] at h
      | vstr s => simp [Intersect] at h
      | vstruct j => simp [Intersect] at h
  · intro src dst p h
    cases src with
    | byVal v => simp [Concat] at h
    | byPtr v =>
      cases v with
      | vseq k elems =>
        cases hks : buildKeySet [] elems with
        | error q =>
          obtain ⟨e, he, hs⟩ := buildKeySet_error_mem elems [] q hks
          exact ⟨k, elems, rfl, Or.inl ⟨e, he, hs⟩⟩
        | ok m =>
          cases dst with
          | vseq kd delems =>
            cases hcl : concatLoop k m elems delems with
            | error q =>
              obtain ⟨e, he, hs⟩ := concatLoop_error_mem k m delems q elems hcl
              exact ⟨k, elems, rfl, Or.inr ⟨kd, delems, rfl, e, he, hs⟩⟩
            | ok out => simp [Concat, hks, hcl] at h
          | vint n =>
            by_cases hk : ((Value.vint n).kind == k) = true
            · simp only [Concat, hks, hk, if_true] at h
              split at h <;> simp at h
            · simp [Concat, hks, hk] at h
          | vstr s =>
            by_cases hk : ((Value.vstr s).kind == k) = true
            · simp only [Concat, hks, hk, if_true] at h
              split at h <;> simp at h
            · simp [Concat, hks, hk] at h
          | vstruct j =>
            by_cases hk : ((Value.vstruct j).kind == k) = true
            · simp only [Concat, hks, hk, if_true] at h
              split at h <;> simp at h
            · simp [Concat, hks, hk] at h
      | vint n => simp [Concat] at h
      | vstr s => simp [Concat] at h
      | vstruct j => simp [Concat] at h
  · intro v p h
    cases v with
    | vseq k elems =>
      by_cases hall : elems.all isSlice = true
      · cases elems with
        | nil => exact ⟨k, [], rfl, rfl, Or.inl rfl⟩
        | cons e0 rest =>
          cases hse : seqElems e0 with
          | nil =>
            exact ⟨k, e0 :: rest, rfl, hall, Or.inr ⟨e0, rest, rfl, Or.inl hse⟩⟩
          | cons w0 tail0 =>
            cases hfill : flattenFill w0.kind ((e0 :: rest).map seqElems).flatten with
            | error q =>
              obtain ⟨w, hw, hk⟩ := flattenFill_error_mem _ _ q hfill
              exact ⟨k, e0 :: rest, rfl, hall, Or.inr ⟨e0, rest, rfl,
                Or.inr ⟨w0, tail0, hse, w, hw, hk⟩⟩⟩
            | ok out =>
              have hfill2 := hfill
              simp only [List.map_cons, List.flatten_cons, hse, List.cons_append] at hfill2
              simp [Flatten, hall, hse, hfill2] at h
      · have hf : elems.all isSlice = false := Bool.eq_false_iff.mpr hall
        simp [Flatten, hf] at h
    | vint n => simp [Flatten] at h
    | vstr s => simp [Flatten] at h
    | vstruct j => simp [Flatten] at h

/-- Claim C2 witness: the `Replace` panic case instantiated at a pointer to
the integer 5 — the characterization yields the non-sequence pointee. -/
theorem panic_only_on_unsupported_shapes_witness :
    ∃ v, Arg.byPtr (Value.vint 5) = Arg.byPtr v ∧ isSlice v = false :=
  panic_only_on_unsupported_shapes.1 (Arg.byPtr (Value.vint 5)) (Value.vint 1)
    (Value.vint 2) GoPanic.elemOfNonContainer rfl

end GoUtil
